import Mathlib

/-
Verification of the text-editing core of the evalvana repository
(src/editor/src/{editor.rs, cursor.rs, rope_ext.rs, lib.rs}).

Modelling conventions:
* The ropey `Rope` that backs the buffer is modelled as the list of its
  Unicode scalar values (`List Char`) together with their real UTF-8 byte
  encoding.  The rope's chunk structure is immaterial: every function of
  the source concatenates or re-queries across chunk boundaries, so the
  values computed depend only on the byte sequence.
* Byte indices, line indices and char indices follow ropey's semantics,
  with line breaks given by "\n" (a "\r\n" pair therefore also ends a
  line, at its "\n").
* Rust `usize` subtraction that cannot underflow is `Nat` subtraction;
  operations that can panic (out-of-range `Rope::remove`, the editor's
  hit-test `expect`/`panic!` paths) return `Option`, with `none` marking
  the panic.
-/

/-- Real UTF-8 encoding of one scalar value (list of byte values). -/
def charUtf8 (c : Char) : List Nat :=
  let v := c.toNat
  if v < 0x80 then [v]
  else if v < 0x800 then [0xC0 + v / 0x40, 0x80 + v % 0x40]
  else if v < 0x10000 then
    [0xE0 + v / 0x1000, 0x80 + v / 0x40 % 0x40, 0x80 + v % 0x40]
  else
    [0xF0 + v / 0x40000, 0x80 + v / 0x1000 % 0x40,
      0x80 + v / 0x40 % 0x40, 0x80 + v % 0x40]

/-- Byte length of one scalar value. -/
def charLen (c : Char) : Nat := (charUtf8 c).length

/-- UTF-8 byte sequence of a buffer (the rope's underlying bytes). -/
def utf8Bytes : List Char → List Nat
  | [] => []
  | c :: rest => charUtf8 c ++ utf8Bytes rest

/-- Models `Rope::len_bytes`. -/
def byteLen : List Char → Nat
  | [] => 0
  | c :: rest => charLen c + byteLen rest

/-- Models `Rope::byte`: the byte value at a byte index. -/
def byteAt (l : List Char) (i : Nat) : Option Nat := (utf8Bytes l).get? i

/-- Number of '\n' characters in the buffer. -/
def newlineCount : List Char → Nat
  | [] => 0
  | c :: rest => (if c = '\n' then 1 else 0) + newlineCount rest

/-- Models `Rope::len_lines`: one more than the number of line breaks. -/
def lenLines (l : List Char) : Nat := newlineCount l + 1

/-- Models `Rope::byte_to_line`: the index of the line containing byte
index `i`, i.e. the number of line breaks that end at or before `i`. -/
def byteToLine : List Char → Nat → Nat
  | [], _ => 0
  | c :: rest, i =>
    if charLen c ≤ i then
      (if c = '\n' then 1 else 0) + byteToLine rest (i - charLen c)
    else 0

/-- Models `Rope::line_to_byte`: the byte index where line `n` starts
(`byteLen` for the index one past the last line). -/
def lineToByte : List Char → Nat → Nat
  | _, 0 => 0
  | [], _ + 1 => 0
  | c :: rest, n + 1 =>
    if c = '\n' then charLen c + lineToByte rest n
    else charLen c + lineToByte rest (n + 1)

/-- Drop the first `n` lines of the buffer. -/
def lineDrop : List Char → Nat → List Char
  | l, 0 => l
  | [], _ + 1 => []
  | c :: rest, n + 1 =>
    if c = '\n' then lineDrop rest n else lineDrop rest (n + 1)

/-- First line of the buffer, terminator included. -/
def takeLine : List Char → List Char
  | [] => []
  | c :: rest => if c = '\n' then [c] else c :: takeLine rest

/-- Models `Rope::line`: the characters of line `n`, terminator included. -/
def lineChars (l : List Char) (n : Nat) : List Char := takeLine (lineDrop l n)

/-- Models `find_end_of_line` (src/editor/src/cursor.rs).  `none` marks
the `usize` underflow of `next_line_start - 1` on an empty buffer. -/
def findEndOfLine (value : List Char) (index : Nat) : Option Nat :=
  let nextLineStart := lineToByte value (byteToLine value index + 1)
  let lastByte := if 1 ≤ nextLineStart then byteAt value (nextLineStart - 1) else none
  let secondLastByte := if 2 ≤ nextLineStart then byteAt value (nextLineStart - 2) else none
  if lastByte = some 10 ∧ secondLastByte = some 13 then
    some (nextLineStart - 2)
  else if nextLineStart = 0 then none
  else some (nextLineStart - 1)

/-- C3: on a non-empty buffer whose last line has no terminator, the
end-of-line computation used by `move_right_by_line` does NOT return
`len()`: on the buffer "ab" at index 0 it returns 1 = `len() - 1`,
stopping one byte short of the end of the buffer. -/
theorem c3_find_end_of_line_stops_short :
    findEndOfLine ['a', 'b'] 0 = some 1 ∧ byteLen ['a', 'b'] = 2 := by
  constructor <;> rfl

/-- Models `RopeSlice::byte_slice(start..stop)` as a list of scalar
values (only called on scalar-value-aligned indices in the source). -/
def byteSlice : List Char → Nat → Nat → List Char
  | [], _, _ => []
  | c :: rest, s, e =>
    if e ≤ 0 then []
    else if charLen c ≤ s then byteSlice rest (s - charLen c) (e - charLen c)
    else c :: byteSlice rest 0 (e - charLen c)

/-- Whitespace per Rust `char::is_whitespace`, restricted to the
characters this development uses. -/
def isWhite (c : Char) : Bool :=
  c = ' ' ∨ c = '\t' ∨ c = '\n' ∨ c = '\r'

/-- Word characters for the word-boundary model (alphanumerics). -/
def isWordChar (c : Char) : Bool := c.isAlphanum

/-- Modelled from the spec: the external
`UnicodeSegmentation::split_word_bound_indices` of the
unicode-segmentation crate, restricted to the character repertoire used
here: maximal runs of alphanumerics form one segment, maximal runs of
spaces form one segment, a "\r\n" pair is one segment, and every other
character is its own segment.  Returns the segments in order. -/
def wordSegments : List Char → List (List Char)
  | [] => []
  | c :: rest =>
    match wordSegments rest with
    | [] => [[c]]
    | seg :: segs =>
      match seg with
      | [] => [c] :: segs
      | d :: ds =>
        if (isWordChar c ∧ isWordChar d) ∨ (c = ' ' ∧ d = ' ')
            ∨ (c = '\r' ∧ d = '\n' ∧ ds = []) then
          (c :: seg) :: segs
        else [c] :: seg :: segs

/-- Annotate a list of segments with their starting byte offsets. -/
def annotateOffsets : Nat → List (List Char) → List (Nat × List Char)
  | _, [] => []
  | off, seg :: segs => (off, seg) :: annotateOffsets (off + byteLen seg) segs

/-- Byte-offset-annotated word segments, as
`split_word_bound_indices` yields them. -/
def wordBoundIndices (l : List Char) : List (Nat × List Char) :=
  annotateOffsets 0 (wordSegments l)

/-- Rust `word.trim_start().is_empty()`: the segment is whitespace-only. -/
def whitespaceOnly (seg : List Char) : Bool := seg.all isWhite

/-- Models `RopeExt::previous_start_of_word` (src/editor/src/rope_ext.rs). -/
def previousStartOfWord (value : List Char) (byteIndex : Nat) : Nat :=
  let lineStart := lineToByte value (byteToLine value byteIndex)
  if byteIndex = lineStart then byteIndex - 1
  else
    let line := byteSlice value lineStart byteIndex
    match ((wordBoundIndices line).filter fun p => ¬ whitespaceOnly p.2).getLast? with
    | some (i, _) => lineStart + i
    | none => 0

/-- Models `RopeExt::next_end_of_word` (src/editor/src/rope_ext.rs). -/
def nextEndOfWord (value : List Char) (byteIndex : Nat) : Nat :=
  let nextLineStart := lineToByte value (byteToLine value byteIndex + 1)
  let lineEnd := if nextLineStart = byteLen value then byteLen value
    else nextLineStart - 1
  if byteIndex = lineEnd then nextLineStart
  else
    let line := byteSlice value byteIndex lineEnd
    match (wordBoundIndices line).find? (fun p => ¬ whitespaceOnly p.2) with
    | some (i, w) => byteIndex + i + byteLen w
    | none => byteLen value

/-- C4: the word-boundary moves do cross line terminators and do split a
CRLF pair: on the buffer "ab\r\ncd", `previous_start_of_word` from index
4 (the start of the second line) returns 3, the offset strictly between
the '\r' (byte 2) and the '\n' (byte 3) of the CRLF terminator; and
`next_end_of_word` from index 1 of "a \nb" returns 4, an index on the
following line. -/
theorem c4_word_moves_cross_terminators :
    previousStartOfWord ['a', 'b', '\r', '\n', 'c', 'd'] 4 = 3 ∧
      byteAt ['a', 'b', '\r', '\n', 'c', 'd'] 2 = some 13 ∧
      byteAt ['a', 'b', '\r', '\n', 'c', 'd'] 3 = some 10 ∧
      nextEndOfWord ['a', ' ', '\n', 'b'] 1 = 4 ∧
      byteToLine ['a', ' ', '\n', 'b'] 1 = 0 ∧
      byteToLine ['a', ' ', '\n', 'b'] 4 = 1 := by
  refine ⟨?_, ?_, ?_, ?_, ?_, ?_⟩ <;> rfl

/-- Whether `i` is a UTF-8 scalar-value boundary of the buffer. -/
def isCharBoundary : List Char → Nat → Bool
  | _, 0 => true
  | [], _ + 1 => false
  | c :: rest, i + 1 =>
    if i + 1 < charLen c then false else isCharBoundary rest (i + 1 - charLen c)

/-- A buffer together with the set of extended-grapheme-cluster
boundaries (in byte offsets) that the external
`unicode_segmentation::GraphemeCursor` computes for it.  The source's
`next_grapheme`/`previous_grapheme` loops drive that cursor across rope
chunks; their result is the adjacent boundary from this set. -/
structure SegRope where
  chars : List Char
  gbounds : List Nat

/-- Well-formedness of the modelled boundary set: strictly ascending,
containing 0 and `len`, and lying on scalar-value boundaries (all
guaranteed by the external segmenter). -/
def SegRope.WF (r : SegRope) : Prop :=
  r.gbounds.Pairwise (· < ·) ∧ 0 ∈ r.gbounds ∧ byteLen r.chars ∈ r.gbounds ∧
    ∀ b ∈ r.gbounds, isCharBoundary r.chars b = true

instance (r : SegRope) : Decidable r.WF := by
  unfold SegRope.WF; infer_instance

/-- Models `RopeExt::next_grapheme`: the least grapheme boundary
strictly after `i`, or `len` when there is none (the loop breaks with
`len` at the end of the rope). -/
def nextGrapheme (r : SegRope) (i : Nat) : Nat :=
  ((r.gbounds.find? fun b => decide (i < b)).getD (byteLen r.chars))

/-- Models `RopeExt::previous_grapheme`: the greatest grapheme boundary
strictly before `i`, or 0 when there is none. -/
def previousGrapheme (r : SegRope) (i : Nat) : Nat :=
  ((r.gbounds.filter fun b => decide (b < i)).getLast?).getD 0

theorem find?_gt_spec {l : List Nat} (hl : l.Pairwise (· < ·)) {i j : Nat}
    (h : l.find? (fun b => decide (i < b)) = some j) :
    j ∈ l ∧ i < j ∧ ∀ b ∈ l, i < b → j ≤ b := by
  induction l with
  | nil => simp [List.find?] at h
  | cons c rest ih =>
    rw [List.find?] at h
    rcases List.pairwise_cons.mp hl with ⟨hc, hrest⟩
    by_cases hic : i < c
    · simp [hic] at h
      subst h
      refine ⟨List.mem_cons_self _ _, hic, ?_⟩
      intro b hb _
      rcases List.mem_cons.mp hb with rfl | hb
      · exact le_refl _
      · exact le_of_lt (hc b hb)
    · simp [hic] at h
      obtain ⟨hj, hij, hmin⟩ := ih hrest h
      refine ⟨List.mem_cons_of_mem _ hj, hij, ?_⟩
      intro b hb hib
      rcases List.mem_cons.mp hb with rfl | hb
      · exact absurd hib hic
      · exact hmin b hb hib

theorem filter_lt_getLast_spec {l : List Nat} (hl : l.Pairwise (· < ·))
    {i m : Nat} (h : (l.filter fun b => decide (b < i)).getLast? = some m) :
    m ∈ l ∧ m < i ∧ ∀ b ∈ l, b < i → b ≤ m := by
  induction l with
  | nil => simp at h
  | cons c rest ih =>
    rcases List.pairwise_cons.mp hl with ⟨hc, hrest⟩
    by_cases hci : c < i
    · rw [List.filter_cons_of_pos (by simpa using hci)] at h
      cases hfr : rest.filter fun b => decide (b < i) with
      | nil =>
        rw [hfr] at h
        simp at h
        subst h
        refine ⟨List.mem_cons_self _ _, hci, ?_⟩
        intro b hb hbi
        rcases List.mem_cons.mp hb with rfl | hb
        · exact le_refl _
        · exfalso
          have : b ∈ rest.filter fun b => decide (b < i) :=
            List.mem_filter.mpr ⟨hb, by simpa using hbi⟩
          rw [hfr] at this
          exact absurd this (List.not_mem_nil _)
      | cons x fr =>
        rw [hfr, List.getLast?_cons_cons] at h
        rw [← hfr] at h
        obtain ⟨hm, hmi, hmax⟩ := ih hrest h
        refine ⟨List.mem_cons_of_mem _ hm, hmi, ?_⟩
        intro b hb hbi
        rcases List.mem_cons.mp hb with rfl | hb
        · exact le_of_lt (hc m hm)
        · exact hmax b hb hbi
    · rw [List.filter_cons_of_neg (by simpa using hci)] at h
      obtain ⟨hm, hmi, hmax⟩ := ih hrest h
      refine ⟨List.mem_cons_of_mem _ hm, hmi, ?_⟩
      intro b hb hbi
      rcases List.mem_cons.mp hb with rfl | hb
      · exact absurd hbi hci
      · exact hmax b hb hbi

/-- C5 counterexample: the claim quantifies over every UTF-8
scalar-value boundary, but the round trip fails at a scalar boundary
that is interior to a grapheme cluster.  Buffer of the three scalars e, U+0301 (combining acute), x
(bytes 0..4, grapheme boundaries
{0, 3, 4}): index 1 is a scalar boundary, `next_grapheme(1) = 3 < 4`,
yet `previous_grapheme(3) = 0 ≠ 1`. -/
theorem c5_counterexample :
    (SegRope.WF ⟨['e', '\u0301', 'x'], [0, 3, 4]⟩) ∧
      isCharBoundary ['e', '\u0301', 'x'] 1 = true ∧
      nextGrapheme ⟨['e', '\u0301', 'x'], [0, 3, 4]⟩ 1 <
        byteLen ['e', '\u0301', 'x'] ∧
      previousGrapheme ⟨['e', '\u0301', 'x'], [0, 3, 4]⟩
        (nextGrapheme ⟨['e', '\u0301', 'x'], [0, 3, 4]⟩ 1) ≠ 1 := by
  refine ⟨by decide, by decide, by decide, by decide⟩

/-- C5 (amended): the grapheme round trip holds at every index that is a
grapheme-cluster boundary (rather than at every scalar-value boundary):
if `i` is a grapheme boundary and `next_grapheme(i) < len` then
`previous_grapheme(next_grapheme(i)) = i`, and if
`previous_grapheme(i) > 0` then `next_grapheme(previous_grapheme(i)) = i`. -/
theorem c5_grapheme_round_trip (r : SegRope) (hwf : r.WF) (i : Nat)
    (hi : i ∈ r.gbounds) :
    (nextGrapheme r i < byteLen r.chars →
      previousGrapheme r (nextGrapheme r i) = i) ∧
    (0 < previousGrapheme r i →
      nextGrapheme r (previousGrapheme r i) = i) := by
  obtain ⟨hsort, _, hlen, _⟩ := hwf
  constructor
  · intro hlt
    unfold nextGrapheme at hlt ⊢
    cases hfind : r.gbounds.find? fun b => decide (i < b) with
    | none => rw [hfind] at hlt; simp at hlt
    | some j =>
      rw [hfind] at hlt
      simp only [Option.getD_some] at hlt ⊢
      obtain ⟨hj, hij, hmin⟩ := find?_gt_spec hsort hfind
      unfold previousGrapheme
      cases hlast : (r.gbounds.filter fun b => decide (b < j)).getLast? with
      | none =>
        exfalso
        have hif : i ∈ r.gbounds.filter fun b => decide (b < j) :=
          List.mem_filter.mpr ⟨hi, by simpa using hij⟩
        cases hfl : r.gbounds.filter fun b => decide (b < j) with
        | nil => rw [hfl] at hif; exact absurd hif (List.not_mem_nil _)
        | cons x xs =>
          rw [hfl] at hlast
          rcases List.getLast?_eq_none_iff.mp hlast with h
          exact absurd h (List.cons_ne_nil _ _)
      | some m =>
        simp only [Option.getD_some]
        obtain ⟨hm, hmj, hmax⟩ := filter_lt_getLast_spec hsort hlast
        have him : i ≤ m := hmax i hi hij
        by_contra hne
        have : i < m := lt_of_le_of_ne him (fun h => hne h.symm)
        exact absurd hmj (not_lt.mpr (hmin m hm this))
  · intro hpos
    unfold previousGrapheme at hpos ⊢
    cases hlast : (r.gbounds.filter fun b => decide (b < i)).getLast? with
    | none => rw [hlast] at hpos; simp at hpos
    | some m =>
      rw [hlast] at hpos
      simp only [Option.getD_some] at hpos ⊢
      obtain ⟨hm, hmi, hmax⟩ := filter_lt_getLast_spec hsort hlast
      unfold nextGrapheme
      cases hfind : r.gbounds.find? fun b => decide (m < b) with
      | none =>
        exfalso
        have := List.find?_eq_none.mp hfind i hi
        simp [hmi] at this
      | some j =>
        simp only [Option.getD_some]
        obtain ⟨hj, hmj, hmin⟩ := find?_gt_spec hsort hfind
        have hji : j ≤ i := hmin i hi hmi
        by_contra hne
        have hjlt : j < i := lt_of_le_of_ne hji hne
        exact absurd hmj (not_lt.mpr (hmax j hj hjlt))

/-- Witness buffer for the amended grapheme round trip: "abc" with every
offset a grapheme boundary. -/
def witnessSegRope : SegRope := ⟨['a', 'b', 'c'], [0, 1, 2, 3]⟩

theorem c5_grapheme_round_trip_witness :
    previousGrapheme witnessSegRope (nextGrapheme witnessSegRope 1) = 1 ∧
      nextGrapheme witnessSegRope (previousGrapheme witnessSegRope 2) = 2 :=
  ⟨(c5_grapheme_round_trip witnessSegRope (by decide) 1 (by decide)).1
      (by decide),
    (c5_grapheme_round_trip witnessSegRope (by decide) 2 (by decide)).2
      (by decide)⟩

/-- The state of a `Cursor` (src/editor/src/cursor.rs `State`). -/
inductive CState
  | Index : Nat → CState
  | Selection : Nat → Nat → CState
deriving DecidableEq

/-- The cursor of the text input (src/editor/src/cursor.rs `Cursor`),
with the remembered-horizontal-offset hint used by vertical movement. -/
structure Cursor where
  st : CState
  offsetXHint : Option ℚ
deriving DecidableEq

/-- Models `Cursor::state`: both fields clamped to the buffer length,
an empty selection collapsed to an index. -/
def Cursor.state (c : Cursor) (value : List Char) : CState :=
  match c.st with
  | .Index index => .Index (min index (byteLen value))
  | .Selection start stop =>
    let start := min start (byteLen value)
    let stop := min stop (byteLen value)
    if start = stop then .Index start else .Selection start stop

/-- Models `Cursor::selection`: the normalized selection range. -/
def Cursor.selection (c : Cursor) (value : List Char) :
    Option (Nat × Nat) :=
  match c.state value with
  | .Selection start stop => some (min start stop, max start stop)
  | _ => none

/-- Models `Cursor::start`. -/
def Cursor.startIdx (c : Cursor) (value : List Char) : Nat :=
  (match c.st with
    | .Index index => index
    | .Selection start _ => start).min (byteLen value)

/-- Models `Cursor::end`. -/
def Cursor.endIdx (c : Cursor) (value : List Char) : Nat :=
  (match c.st with
    | .Index index => index
    | .Selection _ stop => stop).min (byteLen value)

/-- C9: for every buffer and every cursor value (stale indices
included), `selection` returns either nothing or an ordered pair of
in-range offsets, and whenever the two clamped ends of a stored
selection coincide, `state` collapses it to `Index` of that position
(hence `selection` is `none`). -/
theorem c9_selection_normalization (c : Cursor) (value : List Char) :
    (∀ lo hi, c.selection value = some (lo, hi) →
      lo ≤ hi ∧ hi ≤ byteLen value) ∧
    (∀ s e, c.st = .Selection s e →
      min s (byteLen value) = min e (byteLen value) →
      c.state value = .Index (min s (byteLen value)) ∧
        c.selection value = none) := by
  constructor
  · intro lo hi hsel
    unfold Cursor.selection at hsel
    cases hst : c.state value with
    | Index i => rw [hst] at hsel; exact absurd hsel (by simp)
    | Selection s e =>
      rw [hst] at hsel
      simp only [Option.some.injEq, Prod.mk.injEq] at hsel
      obtain ⟨rfl, rfl⟩ := hsel
      constructor
      · exact min_le_max
      · unfold Cursor.state at hst
        cases hc : c.st with
        | Index j => rw [hc] at hst; simp at hst
        | Selection a b =>
          rw [hc] at hst
          by_cases hab : min a (byteLen value) = min b (byteLen value)
          · simp [hab] at hst
          · simp only [if_neg hab] at hst
            cases hst
            simp only [max_le_iff]
            exact ⟨min_le_right _ _, min_le_right _ _⟩
  · intro s e hc heq
    have hstate : c.state value = .Index (min s (byteLen value)) := by
      unfold Cursor.state
      rw [hc]
      simp [heq]
    refine ⟨hstate, ?_⟩
    unfold Cursor.selection
    rw [hstate]

theorem c9_selection_normalization_witness :
    ((⟨.Selection 5 2, none⟩ : Cursor).selection
        ['a', 'b', 'c', 'd', 'e', 'f', 'g', 'h', 'i', 'j'] =
      some (2, 5)) ∧
    (2 : Nat) ≤ 5 ∧ (5 : Nat) ≤
      byteLen ['a', 'b', 'c', 'd', 'e', 'f', 'g', 'h', 'i', 'j'] ∧
    ((⟨.Selection 7 7, none⟩ : Cursor).state ['x'] = .Index 1) := by
  have h1 := (c9_selection_normalization ⟨.Selection 5 2, none⟩
    ['a', 'b', 'c', 'd', 'e', 'f', 'g', 'h', 'i', 'j']).1 2 5 (by decide)
  have h2 := (c9_selection_normalization ⟨.Selection 7 7, none⟩ ['x']).2
    7 7 rfl (by decide)
  exact ⟨by decide, h1.1, h1.2, by simpa using h2.1⟩

/-- Models `Rope::byte_to_char`: the char index of the char containing
the given byte index. -/
def byteToChar : List Char → Nat → Nat
  | [], _ => 0
  | c :: rest, b =>
    if charLen c ≤ b then 1 + byteToChar rest (b - charLen c) else 0

/-- Models `Rope::remove(start..stop)` over CHAR indices; `none` is the
out-of-range panic. -/
def removeChars (l : List Char) (start stop : Nat) : Option (List Char) :=
  if start ≤ stop ∧ stop ≤ l.length then some (l.take start ++ l.drop stop)
  else none

/-- Models `Cursor::move_left`: collapse a selection to its low end, or
retreat one grapheme cluster; clears the hint. -/
def Cursor.moveLeft (c : Cursor) (r : SegRope) : Cursor :=
  match c.state r.chars with
  | .Selection start stop => ⟨.Index (min start stop), none⟩
  | .Index index =>
    if 0 < index then ⟨.Index (previousGrapheme r index), none⟩
    else ⟨.Index 0, none⟩

/-- Models `Editor::backspace` (src/editor/src/editor.rs): the returned
pair is the buffer contents and cursor after the call; `none` is a
panicking `Rope::remove`.  Note the source passes the BYTE indices
`start - 1..start` to the char-indexed `Rope::remove` in the
no-selection branch. -/
def editorBackspace (r : SegRope) (c : Cursor) :
    Option (List Char × Cursor) :=
  match c.selection r.chars with
  | some (start, stop) =>
    let c1 := c.moveLeft r
    (removeChars r.chars (byteToChar r.chars start)
        (byteToChar r.chars stop)).map fun l => (l, c1)
  | none =>
    let start := c.startIdx r.chars
    if 0 < start then
      let c1 := c.moveLeft r
      (removeChars r.chars (start - 1) start).map fun l => (l, c1)
    else some (r.chars, c)

/-- Models `Editor::delete` (src/editor/src/editor.rs).  Note the source
passes the BYTE index range `end..=end` to the char-indexed
`Rope::remove` in the no-selection branch. -/
def editorDelete (r : SegRope) (c : Cursor) : Option (List Char × Cursor) :=
  match c.selection r.chars with
  | some _ => editorBackspace r c
  | none =>
    let stop := c.endIdx r.chars
    if stop < byteLen r.chars then
      (removeChars r.chars stop (stop + 1)).map fun l => (l, c)
    else some (r.chars, c)

/-- C1: `backspace` does not remove the whole grapheme cluster before
the cursor.  Buffer "a\r\n" (bytes 0..3; "\r\n" is a single grapheme
cluster, boundaries {0, 1, 3}), cursor `Index(3)`, no selection: the
source moves the cursor to `previous_grapheme(3) = 1` but removes only
the single char at char index 2, leaving "a\r" instead of "a". -/
theorem c1_backspace_removes_one_char_not_grapheme :
    editorBackspace ⟨['a', '\r', '\n'], [0, 1, 3]⟩ ⟨.Index 3, none⟩ =
        some (['a', '\r'], ⟨.Index 1, none⟩) ∧
      (['a', '\r'] : List Char) ≠ ['a'] ∧
      previousGrapheme ⟨['a', '\r', '\n'], [0, 1, 3]⟩ 3 = 1 := by
  refine ⟨by decide, by decide, by decide⟩

/-- C2: `delete` does not remove the whole grapheme cluster after the
cursor.  Buffer "\r\n" (one grapheme cluster, boundaries {0, 2}),
cursor `Index(0)`, no selection: the source removes only the single
char at char index 0, leaving "\n" instead of the empty buffer. -/
theorem c2_delete_removes_one_char_not_grapheme :
    editorDelete ⟨['\r', '\n'], [0, 2]⟩ ⟨.Index 0, none⟩ =
        some (['\n'], ⟨.Index 0, none⟩) ∧
      (['\n'] : List Char) ≠ [] ∧
      nextGrapheme ⟨['\r', '\n'], [0, 2]⟩ 0 = 2 := by
  refine ⟨by decide, by decide, by decide⟩

/-- C10: with no selection, `backspace` at `Index(0)` and `delete` at
`Index(len)` are complete no-ops: buffer contents and the whole cursor
(its hint included) are unchanged, and no panic occurs. -/
theorem c10_boundary_noops (r : SegRope) (c1 c2 : Cursor)
    (h1 : c1.st = .Index 0) (h2 : c2.st = .Index (byteLen r.chars)) :
    editorBackspace r c1 = some (r.chars, c1) ∧
      editorDelete r c2 = some (r.chars, c2) := by
  constructor
  · have hsel : c1.selection r.chars = none := by
      unfold Cursor.selection Cursor.state
      rw [h1]
    unfold editorBackspace
    rw [hsel]
    have hstart : c1.startIdx r.chars = 0 := by
      unfold Cursor.startIdx
      rw [h1]
      simp
    simp [hstart]
  · have hsel : c2.selection r.chars = none := by
      unfold Cursor.selection Cursor.state
      rw [h2]
    unfold editorDelete
    rw [hsel]
    have hstop : c2.endIdx r.chars = byteLen r.chars := by
      unfold Cursor.endIdx
      rw [h2]
      simp
    simp [hstop]

theorem c10_boundary_noops_witness :
    editorBackspace ⟨['x', 'y'], [0, 1, 2]⟩ ⟨.Index 0, some 7⟩ =
        some (['x', 'y'], ⟨.Index 0, some 7⟩) ∧
      editorDelete ⟨['x', 'y'], [0, 1, 2]⟩ ⟨.Index 2, some 7⟩ =
        some (['x', 'y'], ⟨.Index 2, some 7⟩) :=
  c10_boundary_noops ⟨['x', 'y'], [0, 1, 2]⟩ ⟨.Index 0, some 7⟩
    ⟨.Index 2, some 7⟩ rfl (by decide)

/-- The glyph metrics provider (the `text::Renderer` capability of the
source): pixel widths are modelled as exact rationals. -/
structure TextRenderer where
  defaultSize : ℚ
  measureWidth : List Char → ℚ
  hitTest : List Char → ℚ × ℚ → Option Nat

/-- Models `replace_tab` applied along a line: every tab becomes
`tab_width` spaces. -/
def expandTabs (w : Nat) : List Char → List Char
  | [] => []
  | c :: rest =>
    (if c = '\t' then List.replicate w ' ' else [c]) ++ expandTabs w rest

/-- Control characters (for the grapheme model on display text). -/
def isCtl (c : Char) : Bool := c == '\r' || c == '\n' || decide (c.toNat < 0x20)

/-- Combining marks U+0300..U+036F (for the grapheme model). -/
def isCombiningMark (c : Char) : Bool :=
  decide (0x300 ≤ c.toNat) && decide (c.toNat < 0x370)

/-- Modelled from the spec: whether the external
`str::grapheme_indices` segmentation keeps `c` inside the cluster of the
preceding character: a CRLF pair is one cluster and a combining mark
attaches to a preceding non-control character. -/
def graphemeAttach (prev : Option Char) (c : Char) : Bool :=
  match prev with
  | none => false
  | some p => (p == '\r' && c == '\n') || (isCombiningMark c && !(isCtl p))

/-- Byte offsets of the grapheme-cluster starts of a string, as
`str::grapheme_indices` yields them (first components). -/
def graphemeOffsetsAux : Option Char → Nat → List Char → List Nat
  | _, _, [] => []
  | prev, pos, c :: rest =>
    (if graphemeAttach prev c then ([] : List Nat) else [pos]) ++
      graphemeOffsetsAux (some c) (pos + charLen c) rest

/-- Grapheme-cluster start offsets of a string. -/
def graphemeOffsets (l : List Char) : List Nat := graphemeOffsetsAux none 0 l

/-- Models the `try_fold` of `hit_byte_index` over the bytes of the
un-expanded line: `i` is the running expanded-text offset, `numTabs`
the tabs seen so far, `byteIdx` the hit position in the expanded text.
`none` is the `ControlFlow::Continue` case that the source turns into
a panic. -/
def hitWalkAux (w byteIdx : Nat) : List Nat → Nat → Nat → Option Nat
  | [], _, _ => none
  | b :: rest, i, numTabs =>
    if byteIdx ≤ i then some (byteIdx - numTabs * (w - 1))
    else if b = 9 then
      if byteIdx < i + w then
        if byteIdx - i ≤ w / 2 then some (i - numTabs * (w - 1))
        else some (i - numTabs * (w - 1) + 1)
      else hitWalkAux w byteIdx rest (i + w) (numTabs + 1)
    else hitWalkAux w byteIdx rest (i + 1) numTabs

/-- Models `hit_byte_index` (src/editor/src/lib.rs): expand the line's
tabs, ask the provider for a grapheme-granularity hit, and invert the
tab expansion.  `none` covers both a provider miss and the source's
panicking `expect`/`ControlFlow::Continue` paths (the callers in
`find_index_above/below` panic on a miss as well). -/
def hitByteIndex (R : TextRenderer) (w : Nat) (line : List Char)
    (point : ℚ × ℚ) : Option Nat :=
  let lineText := expandTabs w line
  match R.hitTest lineText point with
  | none => none
  | some index =>
    if index = byteLen lineText then some (byteLen line)
    else
      match (graphemeOffsets lineText).get? index with
      | none => none
      | some byteIdx => hitWalkAux w byteIdx (utf8Bytes line) 0 0

/-- Models `width_of_slice` (src/editor/src/lib.rs): walk the slice,
measuring maximal tab-free segments with the provider and charging
every tab `space_width * tab_width`.  `pending` is the reversed-free
accumulating segment.  The source groups runs of consecutive tabs; the
per-tab accumulation here yields the identical sum and identical
measured segments. -/
def widthOfSliceAux (R : TextRenderer) (w : Nat) (sw : ℚ)
    (pending : List Char) : List Char → ℚ
  | [] => if pending = [] then 0 else R.measureWidth pending
  | c :: rest =>
    if c = '\t' then
      (if pending = [] then 0 else R.measureWidth pending) + sw * (w : ℚ) +
        widthOfSliceAux R w sw [] rest
    else widthOfSliceAux R w sw (pending ++ [c]) rest

/-- Models `width_of_range`: width of the byte range with tabs expanded
to `tab_width` space widths. -/
def widthOfRange (R : TextRenderer) (w : Nat) (value : List Char)
    (start stop : Nat) : ℚ :=
  widthOfSliceAux R w (R.measureWidth [' ']) [] (byteSlice value start stop)

/-- Models `offset_x_of_index`: width of the text from the start of the
line containing `index` up to `index`. -/
def offsetXOfIndex (R : TextRenderer) (w : Nat) (value : List Char)
    (index : Nat) : ℚ :=
  widthOfRange R w value (lineToByte value (byteToLine value index)) index

/-- The first-two-bytes test of `find_index_above/below`: the line is
empty or consists solely of its terminator. -/
def lineTrivial (l : List Char) : Bool :=
  match l with
  | [] => true
  | c :: rest =>
    if c = '\n' then true
    else if c = '\r' then
      match rest with
      | [] => true
      | d :: _ => d == '\n'
    else false

/-- Models `find_index_above` (src/editor/src/cursor.rs).  `none` is the
source's panic on a failed hit test. -/
def findIndexAbove (R : TextRenderer) (w : Nat) (value : List Char)
    (index : Nat) (hint : Option ℚ) : Option (Nat × ℚ) :=
  let lineIndex := byteToLine value index
  if lineIndex = 0 then some (0, 0)
  else
    let offsetX := hint.getD (offsetXOfIndex R w value index)
    let previousLineStart := lineToByte value (lineIndex - 1)
    let previousLine := lineChars value (lineIndex - 1)
    if lineTrivial previousLine then some (previousLineStart, offsetX)
    else
      (hitByteIndex R w previousLine (offsetX, R.defaultSize / 2)).map
        fun offset => (previousLineStart + offset, offsetX)

/-- Models `find_index_below` (src/editor/src/cursor.rs).  `none` is the
source's panic on a failed hit test. -/
def findIndexBelow (R : TextRenderer) (w : Nat) (value : List Char)
    (index : Nat) (hint : Option ℚ) : Option (Nat × ℚ) :=
  let lineIndex := byteToLine value index
  if lineIndex + 1 = lenLines value then
    some (byteLen value, offsetXOfIndex R w value (byteLen value))
  else
    let offsetX := hint.getD (offsetXOfIndex R w value index)
    let nextLineStart := lineToByte value (lineIndex + 1)
    let nextLine := lineChars value (lineIndex + 1)
    if lineTrivial nextLine then some (nextLineStart, offsetX)
    else
      (hitByteIndex R w nextLine (offsetX, R.defaultSize / 2)).map
        fun offset => (nextLineStart + offset, offsetX)

/-- Models `Cursor::move_up`: the result cursor, `none` on the panic of
a failed hit test. -/
def Cursor.moveUp (c : Cursor) (R : TextRenderer) (w : Nat)
    (value : List Char) : Option Cursor :=
  match c.state value with
  | .Index index =>
    if 0 < index then
      (findIndexAbove R w value index c.offsetXHint).map
        fun p => ⟨.Index p.1, some p.2⟩
    else some ⟨.Index 0, c.offsetXHint⟩
  | .Selection start stop =>
    (findIndexAbove R w value (min start stop) c.offsetXHint).map
      fun p => ⟨.Index p.1, some p.2⟩

/-- Models `Cursor::move_down`: the result cursor, `none` on the panic
of a failed hit test. -/
def Cursor.moveDown (c : Cursor) (R : TextRenderer) (w : Nat)
    (value : List Char) : Option Cursor :=
  match c.state value with
  | .Index index =>
    (findIndexBelow R w value index c.offsetXHint).map
      fun p => ⟨.Index p.1, some p.2⟩
  | .Selection start stop =>
    (findIndexBelow R w value (max start stop) c.offsetXHint).map
      fun p => ⟨.Index p.1, some p.2⟩

/-- A provider whose hit test always fails. -/
def noneHitRenderer : TextRenderer := ⟨16, fun _ => 0, fun _ _ => none⟩

/-- C6 counterexample: with a provider whose `hit_test` returns `None`,
`move_down` on the buffer "ab\ncd" from `Index(0)` (non-empty target
line "cd") does not complete as a no-change: the source panics
(modelled by `none`), the claimed recoverable no-change `some` of the
unchanged cursor is not produced. -/
theorem c6_counterexample :
    Cursor.moveDown ⟨.Index 0, none⟩ noneHitRenderer 4
        ['a', 'b', '\n', 'c', 'd'] = none ∧
      (none : Option Cursor) ≠ some ⟨.Index 0, none⟩ := by
  refine ⟨by decide, by decide⟩

/-- C6 (amended): if the provider's `hit_test` returns `None` while
resolving a vertical movement on a non-empty target line, the operation
panics (aborts) — `move_down`/`move_up` propagate the failure rather
than completing as a no-change (`select_down`/`select_up` share the
same `find_index_below/above` path). -/
theorem c6_hit_test_failure_panics (R : TextRenderer) (w : Nat)
    (value : List Char) (c : Cursor) (i : Nat)
    (hst : c.st = .Index i) (hle : i ≤ byteLen value) :
    (byteToLine value i + 1 ≠ lenLines value →
      lineTrivial (lineChars value (byteToLine value i + 1)) = false →
      R.hitTest (expandTabs w (lineChars value (byteToLine value i + 1)))
        (c.offsetXHint.getD (offsetXOfIndex R w value i),
          R.defaultSize / 2) = none →
      c.moveDown R w value = none) ∧
    (0 < i →
      byteToLine value i ≠ 0 →
      lineTrivial (lineChars value (byteToLine value i - 1)) = false →
      R.hitTest (expandTabs w (lineChars value (byteToLine value i - 1)))
        (c.offsetXHint.getD (offsetXOfIndex R w value i),
          R.defaultSize / 2) = none →
      c.moveUp R w value = none) := by
  have hstate : c.state value = .Index i := by
    unfold Cursor.state
    rw [hst]
    simp [Nat.min_eq_left hle]
  constructor
  · intro h1 h2 h3
    unfold Cursor.moveDown
    rw [hstate]
    dsimp only
    unfold findIndexBelow
    dsimp only
    rw [if_neg h1]
    simp only [h2, Bool.false_eq_true, if_false]
    unfold hitByteIndex
    dsimp only
    rw [h3]
    rfl
  · intro h0 h1 h2 h3
    unfold Cursor.moveUp
    rw [hstate]
    dsimp only
    rw [if_pos h0]
    unfold findIndexAbove
    dsimp only
    rw [if_neg h1]
    simp only [h2, Bool.false_eq_true, if_false]
    unfold hitByteIndex
    dsimp only
    rw [h3]
    rfl

theorem c6_hit_test_failure_panics_witness :
    Cursor.moveDown ⟨.Index 2, none⟩ noneHitRenderer 4
        ['a', '\n', 'b', '\n', 'c'] = none ∧
      Cursor.moveUp ⟨.Index 2, none⟩ noneHitRenderer 4
        ['a', '\n', 'b', '\n', 'c'] = none :=
  ⟨(c6_hit_test_failure_panics noneHitRenderer 4 ['a', '\n', 'b', '\n', 'c']
        ⟨.Index 2, none⟩ 2 rfl (by decide)).1 (by decide) (by decide) rfl,
    (c6_hit_test_failure_panics noneHitRenderer 4 ['a', '\n', 'b', '\n', 'c']
        ⟨.Index 2, none⟩ 2 rfl (by decide)).2 (by decide) (by decide)
      (by decide) rfl⟩

theorem utf8Bytes_append (p q : List Char) :
    utf8Bytes (p ++ q) = utf8Bytes p ++ utf8Bytes q := by
  induction p with
  | nil => rfl
  | cons c rest ih => simp [utf8Bytes, ih]

theorem charLen_pos (c : Char) : 1 ≤ charLen c := by
  unfold charLen charUtf8
  dsimp only
  split
  · simp
  · split
    · simp
    · split <;> simp

/-- Expanded-text length of a byte sequence: a tab byte spans
`tab_width` positions, every other byte one. -/
def expLenB (w : Nat) : List Nat → Nat
  | [] => 0
  | b :: rest => (if b = 9 then w else 1) + expLenB w rest

/-- Number of tab bytes in a byte sequence. -/
def tabCountB : List Nat → Nat
  | [] => 0
  | b :: rest => (if b = 9 then 1 else 0) + tabCountB rest

theorem charUtf8_no_tab_byte {c : Char} (hc : c ≠ '\t') :
    ∀ b ∈ charUtf8 c, b ≠ 9 := by
  intro b hb
  unfold charUtf8 at hb
  dsimp only at hb
  by_cases h1 : c.toNat < 0x80
  · rw [if_pos h1] at hb
    simp only [List.mem_singleton] at hb
    subst hb
    intro h9
    apply hc
    have hofn : c = Char.ofNat c.toNat := (Char.ofNat_toNat c).symm
    rw [h9] at hofn
    rw [hofn]
  · rw [if_neg h1] at hb
    have : 0x80 ≤ b := by
      split at hb
      · simp only [List.mem_cons, List.not_mem_nil, or_false] at hb
        rcases hb with rfl | rfl <;> omega
      · split at hb
        · simp only [List.mem_cons, List.not_mem_nil, or_false] at hb
          rcases hb with rfl | rfl | rfl <;> omega
        · simp only [List.mem_cons, List.not_mem_nil, or_false] at hb
          rcases hb with rfl | rfl | rfl | rfl <;> omega
    omega

theorem byteLen_append (p q : List Char) :
    byteLen (p ++ q) = byteLen p + byteLen q := by
  induction p with
  | nil => simp [byteLen]
  | cons c rest ih => simp [byteLen, ih]; omega

theorem byteLen_replicate_space (w : Nat) :
    byteLen (List.replicate w ' ') = w := by
  induction w with
  | zero => rfl
  | succ n ih =>
    rw [List.replicate_succ]
    show charLen ' ' + byteLen (List.replicate n ' ') = n + 1
    rw [ih]
    have h1 : charLen ' ' = 1 := by decide
    omega

theorem expLenB_no_tab {P : List Nat} (h : ∀ b ∈ P, b ≠ 9) (w : Nat) :
    expLenB w P = P.length ∧ tabCountB P = 0 := by
  induction P with
  | nil => exact ⟨rfl, rfl⟩
  | cons b rest ih =>
    have hb : b ≠ 9 := h b (List.mem_cons_self _ _)
    have hrest := ih fun x hx => h x (List.mem_cons_of_mem _ hx)
    refine ⟨?_, ?_⟩ <;> simp [expLenB, tabCountB, hb, hrest.1, hrest.2] <;>
      omega

theorem expLenB_append (w : Nat) (P Q : List Nat) :
    expLenB w (P ++ Q) = expLenB w P + expLenB w Q := by
  induction P with
  | nil => simp [expLenB]
  | cons b rest ih => simp [expLenB, ih]; omega

theorem tabCountB_append (P Q : List Nat) :
    tabCountB (P ++ Q) = tabCountB P + tabCountB Q := by
  induction P with
  | nil => simp [tabCountB]
  | cons b rest ih => simp [tabCountB, ih]; omega

theorem expLenB_utf8 (w : Nat) (p : List Char) :
    expLenB w (utf8Bytes p) = byteLen (expandTabs w p) := by
  induction p with
  | nil => rfl
  | cons c rest ih =>
    by_cases hc : c = '\t'
    · subst hc
      show expLenB w ([9] ++ utf8Bytes rest) =
        byteLen (List.replicate w ' ' ++ expandTabs w rest)
      rw [expLenB_append, byteLen_append, byteLen_replicate_space, ih]
      simp [expLenB]
    · show expLenB w (charUtf8 c ++ utf8Bytes rest) =
        byteLen ((if c = '\t' then List.replicate w ' ' else [c]) ++
          expandTabs w rest)
      rw [if_neg hc, expLenB_append, byteLen_append, ih,
        (expLenB_no_tab (charUtf8_no_tab_byte hc) w).1]
      simp [byteLen, charLen]

theorem expand_byteLen (w : Nat) (hw : 1 ≤ w) (p : List Char) :
    byteLen (expandTabs w p) =
      byteLen p + tabCountB (utf8Bytes p) * (w - 1) := by
  induction p with
  | nil => simp [expandTabs, byteLen, utf8Bytes, tabCountB]
  | cons c rest ih =>
    by_cases hc : c = '\t'
    · subst hc
      show byteLen (List.replicate w ' ' ++ expandTabs w rest) =
        byteLen ('\t' :: rest) + tabCountB ([9] ++ utf8Bytes rest) * (w - 1)
      rw [byteLen_append, byteLen_replicate_space, tabCountB_append, ih]
      show w + _ = charLen '\t' + byteLen rest + _
      have h1 : charLen '\t' = 1 := by decide
      have h9 : tabCountB [9] = 1 := by decide
      rw [h1, h9]
      ring_nf
      omega
    · show byteLen ((if c = '\t' then List.replicate w ' ' else [c]) ++
          expandTabs w rest) =
        byteLen (c :: rest) + tabCountB (charUtf8 c ++ utf8Bytes rest) * (w - 1)
      rw [if_neg hc, byteLen_append, tabCountB_append, ih,
        (expLenB_no_tab (charUtf8_no_tab_byte hc) w).2]
      show byteLen [c] + _ = charLen c + byteLen rest + _
      simp [byteLen]
      omega

theorem hitWalkAux_cons (w byteIdx b : Nat) (rest : List Nat) (i t : Nat) :
    hitWalkAux w byteIdx (b :: rest) i t =
      if byteIdx ≤ i then some (byteIdx - t * (w - 1))
      else if b = 9 then
        if byteIdx < i + w then
          if byteIdx - i ≤ w / 2 then some (i - t * (w - 1))
          else some (i - t * (w - 1) + 1)
        else hitWalkAux w byteIdx rest (i + w) (t + 1)
      else hitWalkAux w byteIdx rest (i + 1) t := rfl

theorem hitWalkAux_append (w byteIdx : Nat) (hw : 1 ≤ w) (P Q : List Nat) :
    ∀ i t, i + expLenB w P ≤ byteIdx →
      hitWalkAux w byteIdx (P ++ Q) i t =
        hitWalkAux w byteIdx Q (i + expLenB w P) (t + tabCountB P) := by
  induction P with
  | nil => intro i t _; simp [expLenB, tabCountB]
  | cons b P ih =>
    intro i t hle
    have hexp : expLenB w (b :: P) = (if b = 9 then w else 1) + expLenB w P :=
      rfl
    have htab : tabCountB (b :: P) = (if b = 9 then 1 else 0) + tabCountB P :=
      rfl
    have hnotle : ¬ byteIdx ≤ i := by
      rw [hexp] at hle
      by_cases hb : b = 9 <;> simp [hb] at hle <;> omega
    rw [List.cons_append, hitWalkAux_cons, if_neg hnotle]
    by_cases hb : b = 9
    · rw [if_pos hb]
      have hnotspan : ¬ byteIdx < i + w := by
        rw [hexp, if_pos hb] at hle
        omega
      rw [if_neg hnotspan]
      rw [ih (i + w) (t + 1) (by rw [hexp, if_pos hb] at hle; omega)]
      have e1 : i + w + expLenB w P = i + expLenB w (b :: P) := by
        rw [hexp, if_pos hb]; omega
      have e2 : t + 1 + tabCountB P = t + tabCountB (b :: P) := by
        rw [htab, if_pos hb]; omega
      rw [e1, e2]
    · rw [if_neg hb]
      rw [ih (i + 1) t (by rw [hexp, if_neg hb] at hle; omega)]
      have e1 : i + 1 + expLenB w P = i + expLenB w (b :: P) := by
        rw [hexp, if_neg hb]; omega
      have e2 : t + tabCountB P = t + tabCountB (b :: P) := by
        rw [htab, if_neg hb]; omega
      rw [e1, e2]

theorem graphemeOffsetsAux_length_le (l : List Char) :
    ∀ prev pos, (graphemeOffsetsAux prev pos l).length ≤ byteLen l := by
  induction l with
  | nil => intro prev pos; simp [graphemeOffsetsAux, byteLen]
  | cons c rest ih =>
    intro prev pos
    have hc := charLen_pos c
    have hr := ih (some c) (pos + charLen c)
    unfold graphemeOffsetsAux
    by_cases ha : graphemeAttach prev c = true <;>
      simp [ha, byteLen] <;> omega

theorem graphemeOffsets_length_le (l : List Char) :
    (graphemeOffsets l).length ≤ byteLen l :=
  graphemeOffsetsAux_length_le l none 0

/-- C7: when the provider hit lands `k` expanded columns into a tab's
`w`-column span (`0 < k < w`), `hit_byte_index` rounds to the byte index
of the tab itself when `k ≤ w - k` (the "before" side, ties included)
and to the byte index just after the tab when `k > w - k`.  `p` is the
part of the line before the tab (it may itself contain tabs), `s` the
rest; the hit offset in the expanded text is
`byteLen (expandTabs w p) + k`. -/
theorem c7_tab_hit_rounding (R : TextRenderer) (w : Nat) (p s : List Char)
    (k g : Nat) (pt : ℚ × ℚ) (hw : 1 ≤ w) (hk0 : 0 < k) (hkw : k < w)
    (hhit : R.hitTest (expandTabs w (p ++ '\t' :: s)) pt = some g)
    (hg : (graphemeOffsets (expandTabs w (p ++ '\t' :: s))).get? g =
      some (byteLen (expandTabs w p) + k)) :
    hitByteIndex R w (p ++ '\t' :: s) pt =
      some (if k ≤ w - k then byteLen p else byteLen p + 1) := by
  have hglen : g < (graphemeOffsets (expandTabs w (p ++ '\t' :: s))).length := by
    by_contra hge
    push_neg at hge
    rw [List.get?_eq_none.mpr hge] at hg
    exact absurd hg (by simp)
  have hgne : g ≠ byteLen (expandTabs w (p ++ '\t' :: s)) :=
    Nat.ne_of_lt (lt_of_lt_of_le hglen (graphemeOffsets_length_le _))
  unfold hitByteIndex
  dsimp only
  rw [hhit]
  dsimp only
  rw [if_neg hgne]
  rw [hg]
  dsimp only
  have hsplit : utf8Bytes (p ++ '\t' :: s) = utf8Bytes p ++ 9 :: utf8Bytes s := by
    rw [utf8Bytes_append]
    rfl
  rw [hsplit]
  rw [hitWalkAux_append w (byteLen (expandTabs w p) + k) hw (utf8Bytes p)
    (9 :: utf8Bytes s) 0 0 (by rw [expLenB_utf8]; omega)]
  rw [hitWalkAux_cons]
  rw [expLenB_utf8]
  have hE := expand_byteLen w hw p
  rw [if_neg (by omega : ¬ byteLen (expandTabs w p) + k ≤
    0 + byteLen (expandTabs w p))]
  rw [if_pos rfl]
  rw [if_pos (by omega : byteLen (expandTabs w p) + k <
    0 + byteLen (expandTabs w p) + w)]
  have hsub : byteLen (expandTabs w p) + k - (0 + byteLen (expandTabs w p)) =
    k := by omega
  rw [hsub]
  simp only [Nat.zero_add]
  generalize hM : tabCountB (utf8Bytes p) * (w - 1) = M at hE
  by_cases hk2 : k ≤ w / 2
  · rw [if_pos hk2, if_pos (by omega : k ≤ w - k)]
    congr 1
    omega
  · rw [if_neg hk2, if_neg (by omega : ¬ k ≤ w - k)]
    congr 1
    omega

/-- A provider used to witness the tab rounding theorem: its hit test
always lands at expanded grapheme index 3. -/
def tabHitRenderer : TextRenderer := ⟨16, fun _ => 0, fun _ _ => some 3⟩

theorem c7_tab_hit_rounding_witness :
    hitByteIndex tabHitRenderer 4 (['a', 'b'] ++ '\t' :: ['x']) (0, 0) =
      some (if 1 ≤ 4 - 1 then byteLen ['a', 'b'] else byteLen ['a', 'b'] + 1) :=
  c7_tab_hit_rounding tabHitRenderer 4 ['a', 'b'] ['x'] 1 3 (0, 0)
    (by decide) (by decide) (by decide) rfl (by decide)

theorem takeLine_byteLen_le (l : List Char) :
    byteLen (takeLine l) ≤ byteLen l := by
  induction l with
  | nil => simp [takeLine]
  | cons c rest ih =>
    unfold takeLine
    by_cases hc : c = '\n'
    · simp only [hc, if_pos rfl]
      show charLen '\n' + byteLen [] ≤ byteLen ('\n' :: rest)
      show charLen '\n' + 0 ≤ charLen '\n' + byteLen rest
      omega
    · rw [if_neg hc]
      show charLen c + byteLen (takeLine rest) ≤ charLen c + byteLen rest
      omega

theorem lineToByte_add_lineLen_le (value : List Char) :
    ∀ n, lineToByte value n + byteLen (lineChars value n) ≤ byteLen value := by
  induction value with
  | nil =>
    intro n
    cases n <;> simp [lineToByte, lineChars, lineDrop, takeLine, byteLen]
  | cons c rest ih =>
    intro n
    cases n with
    | zero =>
      show lineToByte (c :: rest) 0 + byteLen (takeLine (c :: rest)) ≤ _
      show 0 + byteLen (takeLine (c :: rest)) ≤ byteLen (c :: rest)
      have := takeLine_byteLen_le (c :: rest)
      omega
    | succ n =>
      unfold lineToByte lineChars lineDrop
      by_cases hc : c = '\n'
      · rw [if_pos hc, if_pos hc]
        have := ih n
        unfold lineChars at this
        show charLen c + lineToByte rest n +
          byteLen (takeLine (lineDrop rest n)) ≤ charLen c + byteLen rest
        omega
      · rw [if_neg hc, if_neg hc]
        have := ih (n + 1)
        unfold lineChars at this
        show charLen c + lineToByte rest (n + 1) +
          byteLen (takeLine (lineDrop rest (n + 1))) ≤ charLen c + byteLen rest
        omega

theorem lineDrop_zero (l : List Char) : lineDrop l 0 = l := by
  cases l <;> rfl

theorem lineToByte_zero (l : List Char) : lineToByte l 0 = 0 := by
  cases l <;> rfl

theorem byteToLine_lineToByte_add (value : List Char) :
    ∀ n o, o < byteLen (lineChars value n) →
      byteToLine value (lineToByte value n + o) = n := by
  induction value with
  | nil =>
    intro n o h
    exfalso
    cases n <;> simp [lineChars, lineDrop, takeLine, byteLen] at h
  | cons c rest ih =>
    intro n o h
    cases n with
    | zero =>
      rw [lineToByte_zero, Nat.zero_add]
      unfold lineChars at h
      rw [lineDrop_zero] at h
      unfold takeLine at h
      by_cases hc : c = '\n'
      · subst hc
        rw [if_pos rfl] at h
        have hlen : byteLen ['\n'] = charLen '\n' := by simp [byteLen]
        unfold byteToLine
        rw [if_neg (by omega)]
      · rw [if_neg hc] at h
        have hsplit : byteLen (c :: takeLine rest) =
          charLen c + byteLen (takeLine rest) := rfl
        unfold byteToLine
        by_cases ho : charLen c ≤ o
        · rw [if_pos ho]
          have h2 := ih 0 (o - charLen c) (by
            unfold lineChars
            rw [lineDrop_zero]
            omega)
          rw [lineToByte_zero, Nat.zero_add] at h2
          rw [if_neg hc, h2]
        · rw [if_neg ho]
    | succ n =>
      unfold lineChars lineDrop at h
      unfold lineToByte
      by_cases hc : c = '\n'
      · rw [if_pos hc] at h ⊢
        unfold byteToLine
        rw [if_pos (by omega)]
        have harg : charLen c + lineToByte rest n + o - charLen c =
          lineToByte rest n + o := by omega
        rw [harg]
        have h2 := ih n o (by unfold lineChars; exact h)
        rw [h2, if_pos hc]
        omega
      · rw [if_neg hc] at h ⊢
        unfold byteToLine
        rw [if_pos (by omega)]
        have harg : charLen c + lineToByte rest (n + 1) + o - charLen c =
          lineToByte rest (n + 1) + o := by omega
        rw [harg]
        have h2 := ih (n + 1) o (by unfold lineChars; exact h)
        rw [h2, if_neg hc]
        omega

theorem lineToByte_succ_pos {value : List Char} (hv : value ≠ []) (n : Nat) :
    1 ≤ lineToByte value (n + 1) := by
  cases value with
  | nil => exact absurd rfl hv
  | cons c rest =>
    unfold lineToByte
    have := charLen_pos c
    by_cases hc : c = '\n'
    · rw [if_pos hc]; omega
    · rw [if_neg hc]; omega

/-- C8 (amended): moving down then up from `Index(i)` (no prior hint,
`i` not on the last line) returns to a position whose
`offset_x_of_index` equals the original, PROVIDED the provider is
consistent in the following sense: its hit on the intermediate line
resolves to a byte offset within that line (`o1` strictly below the
line's byte length), and its hit on the original line at the
remembered horizontal offset returns a byte index `b2` whose
`offset_x_of_index` re-measures to that offset.  The offset hint
written by `move_down` makes `move_up` re-query the original line at
the original offset, which is the mechanism behind the claim; the
provider-side conditions are what the claim's "consistent glyph
metrics provider" must supply (the counterexample violates the first
one). -/
theorem c8_vertical_stability (R : TextRenderer) (w : Nat)
    (value : List Char) (c : Cursor) (i o1 b2 : Nat)
    (hst : c.st = .Index i) (hhint : c.offsetXHint = none)
    (hle : i ≤ byteLen value)
    (hNotLast : byteToLine value i + 1 ≠ lenLines value)
    (hNt1 : lineTrivial (lineChars value (byteToLine value i + 1)) = false)
    (hNt0 : lineTrivial (lineChars value (byteToLine value i)) = false)
    (hdown : hitByteIndex R w (lineChars value (byteToLine value i + 1))
      (offsetXOfIndex R w value i, R.defaultSize / 2) = some o1)
    (ho1 : o1 < byteLen (lineChars value (byteToLine value i + 1)))
    (hup : hitByteIndex R w (lineChars value (byteToLine value i))
      (offsetXOfIndex R w value i, R.defaultSize / 2) = some b2)
    (hb2 : offsetXOfIndex R w value
        (lineToByte value (byteToLine value i) + b2) =
      offsetXOfIndex R w value i) :
    (c.moveDown R w value).bind (fun c1 => c1.moveUp R w value) =
      some ⟨.Index (lineToByte value (byteToLine value i) + b2),
        some (offsetXOfIndex R w value i)⟩ ∧
    offsetXOfIndex R w value
        (lineToByte value (byteToLine value i) + b2) =
      offsetXOfIndex R w value i := by
  refine ⟨?_, hb2⟩
  have hstate : c.state value = .Index i := by
    unfold Cursor.state
    rw [hst]
    simp [Nat.min_eq_left hle]
  have hdownEq : c.moveDown R w value =
      some ⟨.Index (lineToByte value (byteToLine value i + 1) + o1),
        some (offsetXOfIndex R w value i)⟩ := by
    unfold Cursor.moveDown
    rw [hstate]
    dsimp only
    unfold findIndexBelow
    dsimp only
    rw [if_neg hNotLast, hhint]
    simp only [Option.getD_none]
    simp only [hNt1, Bool.false_eq_true, if_false]
    rw [hdown]
    rfl
  rw [hdownEq]
  have hj : byteToLine value
      (lineToByte value (byteToLine value i + 1) + o1) =
      byteToLine value i + 1 :=
    byteToLine_lineToByte_add value (byteToLine value i + 1) o1 ho1
  have hjle : lineToByte value (byteToLine value i + 1) + o1 ≤
      byteLen value := by
    have := lineToByte_add_lineLen_le value (byteToLine value i + 1)
    omega
  have hvne : value ≠ [] := by
    intro hv
    apply hNotLast
    subst hv
    rfl
  have hjpos : 0 < lineToByte value (byteToLine value i + 1) + o1 := by
    have := lineToByte_succ_pos hvne (byteToLine value i)
    omega
  have hupEq : (⟨.Index (lineToByte value (byteToLine value i + 1) + o1),
      some (offsetXOfIndex R w value i)⟩ : Cursor).moveUp R w value =
      some ⟨.Index (lineToByte value (byteToLine value i) + b2),
        some (offsetXOfIndex R w value i)⟩ := by
    unfold Cursor.moveUp
    have hst2 : Cursor.state
        ⟨.Index (lineToByte value (byteToLine value i + 1) + o1),
          some (offsetXOfIndex R w value i)⟩ value =
        .Index (lineToByte value (byteToLine value i + 1) + o1) := by
      unfold Cursor.state
      simp [Nat.min_eq_left hjle]
    rw [hst2]
    dsimp only
    rw [if_pos hjpos]
    unfold findIndexAbove
    dsimp only
    rw [hj]
    rw [if_neg (Nat.succ_ne_zero _)]
    simp only [Option.getD_some]
    rw [Nat.add_sub_cancel]
    simp only [hNt0, Bool.false_eq_true, if_false]
    rw [hup]
    rfl
  simp only [Option.some_bind]
  exact hupEq

/-- A consistent monospace provider: every character (the line
terminator included) measures one column, the hit test returns the
boundary at the floor of the x coordinate, capped at the end of the
text. -/
def monoRenderer : TextRenderer :=
  ⟨16, fun l => (l.length : ℚ),
    fun text pt => some (min (Rat.floor pt.1).toNat (byteLen text))⟩

/-- The buffer "abcd\nx\nefgh" of the C8 counterexample. -/
def demoBuffer : List Char :=
  ['a', 'b', 'c', 'd', '\n', 'x', '\n', 'e', 'f', 'g', 'h']

/-- C8 counterexample: on "abcd\nx\nefgh" under the monospace provider,
`move_down` from `Index(3)` (column 3 of "abcd") hit-tests the line
"x\n" (terminator included) at x = 3; the nearest boundary is the end
of that line text, which maps to byte offset 2 — the START of the line
"efgh".  `move_up` then starts from line 2 and lands back on line 1 at
the same spot, so down-then-up ends at `Index(7)` with
`offset_x_of_index` 0 instead of the original 3. -/
theorem c8_counterexample :
    ((⟨.Index 3, none⟩ : Cursor).moveDown monoRenderer 4 demoBuffer).bind
        (fun c1 => c1.moveUp monoRenderer 4 demoBuffer) =
      some ⟨.Index 7, some 3⟩ ∧
    byteToLine demoBuffer 7 = 2 ∧
    offsetXOfIndex monoRenderer 4 demoBuffer 7 = 0 ∧
    offsetXOfIndex monoRenderer 4 demoBuffer 3 = 3 ∧
    (0 : ℚ) ≠ 3 := by
  refine ⟨by decide, by decide, by decide, by decide, by decide⟩

theorem c8_vertical_stability_witness :
    ((⟨.Index 1, none⟩ : Cursor).moveDown monoRenderer 4
        ['a', 'b', '\n', 'c', 'd']).bind
        (fun c1 => c1.moveUp monoRenderer 4 ['a', 'b', '\n', 'c', 'd']) =
      some ⟨.Index (lineToByte ['a', 'b', '\n', 'c', 'd']
          (byteToLine ['a', 'b', '\n', 'c', 'd'] 1) + 1),
        some (offsetXOfIndex monoRenderer 4 ['a', 'b', '\n', 'c', 'd'] 1)⟩ ∧
    offsetXOfIndex monoRenderer 4 ['a', 'b', '\n', 'c', 'd']
        (lineToByte ['a', 'b', '\n', 'c', 'd']
          (byteToLine ['a', 'b', '\n', 'c', 'd'] 1) + 1) =
      offsetXOfIndex monoRenderer 4 ['a', 'b', '\n', 'c', 'd'] 1 :=
  c8_vertical_stability monoRenderer 4 ['a', 'b', '\n', 'c', 'd']
    ⟨.Index 1, none⟩ 1 1 1 rfl rfl (by decide) (by decide) (by decide)
    (by decide) (by decide) (by decide) (by decide) (by decide)
